import Mathlib

/-!
Verification development for the `webcrawler` repository
(`src/3webmap_playwright.py` and `src/final/final_webmap.py`).

Strings are embedded as `List Char` so that the Python string operations
(`split`, `rstrip`, `count`, `endswith`, `startswith`, `lower`) become
executable list functions.  Every definition is translated from the source
files; doc comments name the Python function and file each one embeds.
-/

/-- Embedded string type: Python `str` as a list of characters. -/
abbrev Str := List Char

/-- Embedded URL type (URLs are plain strings in the source). -/
abbrev Url := Str

/-- Python `s.split(c, 1)[0]`: the prefix of `s` before the first occurrence
of the character `c` (the whole string when `c` does not occur). -/
def beforeChar (c : Char) (s : Str) : Str :=
  s.takeWhile (fun a => a != c)

/-- Python `s.rstrip(c)`: remove every trailing occurrence of `c`. -/
def rstripChar (c : Char) (s : Str) : Str :=
  (s.reverse.dropWhile (fun a => a == c)).reverse

/-- Python `s.endswith("/")` for the one-character suffix `/`. -/
def endsWithSlash (s : Str) : Bool :=
  s.getLast? == some '/'

/-- The three-character separator `"://"` used by `str.split("://", 1)`. -/
def sep : Str := [':', '/', '/']

/-- Tests whether a string starts with the separator `"://"`. -/
def startsSep : Str → Bool
  | a :: b :: c :: _ => a == ':' && b == '/' && c == '/'
  | _ => false

/-- Python `url.split("://", 1)`: `some (before, after)` splits at the first
occurrence of `"://"`, `none` when the separator does not occur. -/
def splitSep : Str → Option (Str × Str)
  | [] => none
  | x :: xs =>
      if startsSep (x :: xs) then some ([], xs.drop 2)
      else
        match splitSep xs with
        | some (pre, post) => some (x :: pre, post)
        | none => none

/-- `normalize` from `src/3webmap_playwright.py` (lines 69-75), named `normalize3` here because Mathlib already declares a root `normalize`:
empty input returned unchanged; otherwise split off everything from the
first `#`, then from the first `?`, then `rstrip("/")` (which removes every
trailing slash, including the one of `"https://a.com/"`). -/
def normalize3 (link : Str) : Str :=
  if link = [] then link
  else rstripChar '/' (beforeChar '?' (beforeChar '#' link))

/-- `normalize` from `src/final/final_webmap.py` (lines 40-56): strip the
fragment and query as above; then split on `"://"` and remove the trailing
slashes of the part after the separator only when that part contains more
than one `/` (so a bare origin `"https://a.com/"` keeps its slash); a string
without `"://"` is treated the same way as a whole. -/
def normalizeFinal (url : Str) : Str :=
  if url = [] then url
  else
    let u := beforeChar '?' (beforeChar '#' url)
    match splitSep u with
    | some (scheme, rest) =>
        let rest' := if endsWithSlash rest && decide (1 < rest.count '/') then
            rstripChar '/' rest
          else rest
        scheme ++ sep ++ rest'
    | none =>
        if endsWithSlash u && decide (1 < u.count '/') then rstripChar '/' u
        else u


theorem mem_beforeChar {a c : Char} {s : Str} (h : a ∈ beforeChar c s) : a ∈ s ∧ a ≠ c := by
  refine ⟨(List.takeWhile_sublist _).subset h, ?_⟩
  have hp := List.mem_takeWhile_imp h
  simpa using hp

theorem beforeChar_eq_self {c : Char} {s : Str} (h : ∀ a ∈ s, a ≠ c) : beforeChar c s = s := by
  unfold beforeChar
  rw [List.takeWhile_eq_self_iff]
  intro x hx
  simpa using h x hx

theorem dropWhile_dropWhile_same (p : Char → Bool) (l : List Char) :
    (l.dropWhile p).dropWhile p = l.dropWhile p := by
  induction l with
  | nil => rfl
  | cons x xs ih =>
    by_cases h : p x = true
    · simp [List.dropWhile_cons, h, ih]
    · simp [List.dropWhile_cons, h]

theorem rstripChar_idem (c : Char) (s : Str) :
    rstripChar c (rstripChar c s) = rstripChar c s := by
  unfold rstripChar
  rw [List.reverse_reverse, dropWhile_dropWhile_same]

theorem mem_rstripChar {a c : Char} {s : Str} (h : a ∈ rstripChar c s) : a ∈ s := by
  unfold rstripChar at h
  rw [List.mem_reverse] at h
  have hm := (List.dropWhile_sublist _).subset h
  rwa [List.mem_reverse] at hm

theorem endsWithSlash_rstripChar (s : Str) : endsWithSlash (rstripChar '/' s) = false := by
  have h := List.head?_dropWhile_not (fun a => a == '/') s.reverse
  unfold endsWithSlash rstripChar
  rw [List.getLast?_reverse]
  revert h
  cases hh : (s.reverse.dropWhile (fun a => a == '/')).head? with
  | none => intro _; rfl
  | some x => intro h; simp only at h; simp [h]

theorem rstripChar_isPre (c : Char) (s : Str) : rstripChar c s <+: s := by
  refine ⟨(s.reverse.takeWhile (fun a => a == c)).reverse, ?_⟩
  unfold rstripChar
  rw [← List.reverse_append, List.takeWhile_append_dropWhile, List.reverse_reverse]

theorem startsSep_eq {s : Str} (h : startsSep s = true) : ∃ t, s = sep ++ t := by
  match s, h with
  | a :: b :: c :: t, h =>
    simp only [startsSep, Bool.and_eq_true, beq_iff_eq] at h
    exact ⟨t, by simp [sep, h.1.1, h.1.2, h.2]⟩

theorem splitSep_eq_append {s pre post : Str} (h : splitSep s = some (pre, post)) :
    s = pre ++ (sep ++ post) := by
  induction s generalizing pre post with
  | nil => simp [splitSep] at h
  | cons x xs ih =>
    rw [splitSep] at h
    by_cases hs : startsSep (x :: xs) = true
    · rw [if_pos hs] at h
      obtain ⟨t, ht⟩ := startsSep_eq hs
      simp only [sep, List.cons_append, List.nil_append, List.cons.injEq] at ht
      obtain ⟨hx, hxs⟩ := ht
      subst hx; subst hxs
      simp only [List.drop_succ_cons, List.drop_zero, Option.some.injEq,
        Prod.mk.injEq] at h
      obtain ⟨h1, h2⟩ := h
      subst h1; subst h2
      simp [sep]
    · rw [if_neg hs] at h
      cases hsp : splitSep xs with
      | none => rw [hsp] at h; exact absurd h (by simp)
      | some pr =>
        obtain ⟨pre', post'⟩ := pr
        rw [hsp] at h
        simp only [Option.some.injEq, Prod.mk.injEq] at h
        obtain ⟨h1, h2⟩ := h
        subst h1; subst h2
        simp [ih hsp]

theorem splitSep_append_isSome (l r : Str) :
    (splitSep (l ++ (sep ++ r))).isSome = true := by
  induction l with
  | nil =>
    have he : ([] : Str) ++ (sep ++ r) = ':' :: '/' :: '/' :: r := by simp [sep]
    rw [he, splitSep]
    simp [startsSep]
  | cons x l ih =>
    have he : (x :: l) ++ (sep ++ r) = x :: (l ++ (sep ++ r)) := by simp
    rw [he, splitSep]
    by_cases hs : startsSep (x :: (l ++ (sep ++ r))) = true
    · simp [hs]
    · rw [if_neg hs]
      cases hsp : splitSep (l ++ (sep ++ r)) with
      | none => rw [hsp] at ih; simp at ih
      | some pr => obtain ⟨a, b⟩ := pr; simp [hsp]

theorem startsSep_tail_irrel (x : Char) (l a b : Str) :
    startsSep (x :: (l ++ (sep ++ a))) = startsSep (x :: (l ++ (sep ++ b))) := by
  match l with
  | [] => rfl
  | [p] => rfl
  | p :: q :: t => rfl

theorem splitSep_stable (r : Str) {s pre post : Str}
    (h : splitSep s = some (pre, post)) :
    splitSep (pre ++ (sep ++ r)) = some (pre, r) := by
  induction s generalizing pre post with
  | nil => simp [splitSep] at h
  | cons x xs ih =>
    rw [splitSep] at h
    by_cases hs : startsSep (x :: xs) = true
    · rw [if_pos hs] at h
      simp only [Option.some.injEq, Prod.mk.injEq] at h
      obtain ⟨h1, h2⟩ := h
      subst h1
      have he : ([] : Str) ++ (sep ++ r) = ':' :: '/' :: '/' :: r := by simp [sep]
      rw [he, splitSep]
      simp [startsSep]
    · rw [if_neg hs] at h
      cases hsp : splitSep xs with
      | none => rw [hsp] at h; exact absurd h (by simp)
      | some pr =>
        obtain ⟨pre', post'⟩ := pr
        rw [hsp] at h
        simp only [Option.some.injEq, Prod.mk.injEq] at h
        obtain ⟨h1, h2⟩ := h
        subst h1; subst h2
        have he : (x :: pre') ++ (sep ++ r) = x :: (pre' ++ (sep ++ r)) := by simp
        rw [he, splitSep]
        have hns : startsSep (x :: (pre' ++ (sep ++ r))) = false := by
          rw [startsSep_tail_irrel x pre' r post', ← splitSep_eq_append hsp]
          simpa using hs
        rw [if_neg (by simp [hns])]
        rw [ih hsp]

theorem splitSep_none_of_isPre {s t : Str} (h : splitSep s = none) (hp : t <+: s) :
    splitSep t = none := by
  cases hsp : splitSep t with
  | none => rfl
  | some pr =>
    obtain ⟨pre, post⟩ := pr
    obtain ⟨d, hd⟩ := hp
    have hseq : s = pre ++ (sep ++ (post ++ d)) := by
      rw [← hd, splitSep_eq_append hsp]
      simp
    have hsome := splitSep_append_isSome pre (post ++ d)
    rw [← hseq, h] at hsome
    simp at hsome

theorem mem_stripFrag {a : Char} {s : Str}
    (h : a ∈ beforeChar '?' (beforeChar '#' s)) : a ∈ s ∧ a ≠ '#' ∧ a ≠ '?' := by
  have h2 := mem_beforeChar h
  have h3 := mem_beforeChar h2.1
  exact ⟨h3.1, h3.2, h2.2⟩

theorem mem_normalize3 {a : Char} {s : Str} (h : a ∈ normalize3 s) :
    a ∈ s ∧ a ≠ '#' ∧ a ≠ '?' := by
  unfold normalize3 at h
  by_cases hs : s = []
  · rw [if_pos hs] at h; subst hs; simp at h
  · rw [if_neg hs] at h
    exact mem_stripFrag (mem_rstripChar h)

theorem normalize3_fix {v : Str} (h1 : ∀ a ∈ v, a ≠ '#') (h2 : ∀ a ∈ v, a ≠ '?')
    (h3 : rstripChar '/' v = v) : normalize3 v = v := by
  unfold normalize3
  by_cases hv : v = []
  · rw [if_pos hv]
  · rw [if_neg hv, beforeChar_eq_self h1, beforeChar_eq_self h2, h3]

theorem normalize3_idem (u : Str) : normalize3 (normalize3 u) = normalize3 u := by
  by_cases hu : u = []
  · subst hu; simp [normalize3]
  · have hval : normalize3 u = rstripChar '/' (beforeChar '?' (beforeChar '#' u)) := by
      unfold normalize3; rw [if_neg hu]
    refine normalize3_fix ?_ ?_ ?_
    · exact fun a ha => (mem_normalize3 ha).2.1
    · exact fun a ha => (mem_normalize3 ha).2.2
    · rw [hval, rstripChar_idem]

theorem normalizeFinal_val {u0 : Str} (h0 : u0 ≠ []) :
    normalizeFinal u0 =
      match splitSep (beforeChar '?' (beforeChar '#' u0)) with
      | some (scheme, rest) =>
          scheme ++ sep ++
            (if endsWithSlash rest && decide (1 < rest.count '/') then rstripChar '/' rest
             else rest)
      | none =>
          if endsWithSlash (beforeChar '?' (beforeChar '#' u0)) &&
              decide (1 < (beforeChar '?' (beforeChar '#' u0)).count '/') then
            rstripChar '/' (beforeChar '?' (beforeChar '#' u0))
          else beforeChar '?' (beforeChar '#' u0) := by
  unfold normalizeFinal
  rw [if_neg h0]

theorem normalizeFinal_fix {v : Str} (hv : v ≠ [])
    (h1 : ∀ a ∈ v, a ≠ '#') (h2 : ∀ a ∈ v, a ≠ '?')
    (h3 : ∀ scheme rest, splitSep v = some (scheme, rest) →
        (endsWithSlash rest && decide (1 < rest.count '/')) = false ∧
          v = scheme ++ sep ++ rest)
    (h4 : splitSep v = none →
        (endsWithSlash v && decide (1 < v.count '/')) = false) :
    normalizeFinal v = v := by
  rw [normalizeFinal_val hv,
    beforeChar_eq_self (c := '#') (fun a ha => h1 a ha),
    beforeChar_eq_self (c := '?') (fun a ha => h2 a ha)]
  cases hsp : splitSep v with
  | some pr =>
    obtain ⟨scheme, rest⟩ := pr
    obtain ⟨hc, he⟩ := h3 scheme rest hsp
    simp only [hc, Bool.false_eq_true, if_false]
    exact he.symm
  | none =>
    simp only [h4 hsp, Bool.false_eq_true, if_false]

theorem mem_normalizeFinal {a : Char} {s : Str} (h : a ∈ normalizeFinal s) :
    a ≠ '#' ∧ a ≠ '?' := by
  by_cases hs : s = []
  · subst hs; simp [normalizeFinal] at h
  · rw [normalizeFinal_val hs] at h
    cases hsp : splitSep (beforeChar '?' (beforeChar '#' s)) with
    | some pr =>
      obtain ⟨scheme, rest⟩ := pr
      simp only [hsp] at h
      have hu := splitSep_eq_append hsp
      rcases List.mem_append.1 h with h1 | h1
      · rcases List.mem_append.1 h1 with h2 | h2
        · have hm : a ∈ beforeChar '?' (beforeChar '#' s) := by rw [hu]; simp [h2]
          exact ⟨(mem_stripFrag hm).2.1, (mem_stripFrag hm).2.2⟩
        · simp only [sep, List.mem_cons, List.not_mem_nil, or_false] at h2
          rcases h2 with rfl | rfl | rfl <;> exact ⟨by decide, by decide⟩
      · have hr : a ∈ rest := by
          by_cases hcond : (endsWithSlash rest && decide (1 < rest.count '/')) = true
          · rw [if_pos hcond] at h1; exact mem_rstripChar h1
          · rw [if_neg hcond] at h1; exact h1
        have hm : a ∈ beforeChar '?' (beforeChar '#' s) := by rw [hu]; simp [hr]
        exact ⟨(mem_stripFrag hm).2.1, (mem_stripFrag hm).2.2⟩
    | none =>
      simp only [hsp] at h
      have hm : a ∈ beforeChar '?' (beforeChar '#' s) := by
        by_cases hcond : (endsWithSlash (beforeChar '?' (beforeChar '#' s)) &&
            decide (1 < (beforeChar '?' (beforeChar '#' s)).count '/')) = true
        · rw [if_pos hcond] at h; exact mem_rstripChar h
        · rw [if_neg hcond] at h; exact h
      exact ⟨(mem_stripFrag hm).2.1, (mem_stripFrag hm).2.2⟩

theorem normalizeFinal_idem (u0 : Str) :
    normalizeFinal (normalizeFinal u0) = normalizeFinal u0 := by
  by_cases h0 : u0 = []
  · subst h0; simp [normalizeFinal]
  · have hval := normalizeFinal_val h0
    cases hsp : splitSep (beforeChar '?' (beforeChar '#' u0)) with
    | some pr =>
      obtain ⟨scheme, rest⟩ := pr
      simp only [hsp] at hval
      set R := if endsWithSlash rest && decide (1 < rest.count '/') then rstripChar '/' rest
        else rest with hR
      have hne : normalizeFinal u0 ≠ [] := by
        rw [hval]; intro hc; simp [sep] at hc
      have hsplitv : splitSep (normalizeFinal u0) = some (scheme, R) := by
        rw [hval]
        have ha : scheme ++ sep ++ R = scheme ++ (sep ++ R) := by simp
        rw [ha]
        exact splitSep_stable R hsp
      have hcond2 : (endsWithSlash R && decide (1 < R.count '/')) = false := by
        rw [hR]
        by_cases hcond : (endsWithSlash rest && decide (1 < rest.count '/')) = true
        · rw [if_pos hcond, endsWithSlash_rstripChar, Bool.false_and]
        · rw [if_neg hcond]; simpa using hcond
      refine normalizeFinal_fix hne (fun a ha => (mem_normalizeFinal ha).1)
        (fun a ha => (mem_normalizeFinal ha).2) ?_ ?_
      · intro s0 r0 heq
        rw [hsplitv] at heq
        simp only [Option.some.injEq, Prod.mk.injEq] at heq
        obtain ⟨hq1, hq2⟩ := heq
        subst hq1; subst hq2
        exact ⟨hcond2, hval⟩
      · intro hnone
        rw [hsplitv] at hnone; cases hnone
    | none =>
      simp only [hsp] at hval
      by_cases hvnil : normalizeFinal u0 = []
      · rw [hvnil]
        simp [normalizeFinal]
      · refine normalizeFinal_fix hvnil (fun a ha => (mem_normalizeFinal ha).1)
          (fun a ha => (mem_normalizeFinal ha).2) ?_ ?_
        · intro s0 r0 heq
          have hnone : splitSep (normalizeFinal u0) = none := by
            refine splitSep_none_of_isPre hsp ?_
            rw [hval]
            by_cases hcond : (endsWithSlash (beforeChar '?' (beforeChar '#' u0)) &&
                decide (1 < (beforeChar '?' (beforeChar '#' u0)).count '/')) = true
            · rw [if_pos hcond]; exact rstripChar_isPre _ _
            · rw [if_neg hcond]
          rw [hnone] at heq; cases heq
        · intro _
          by_cases hcond : (endsWithSlash (beforeChar '?' (beforeChar '#' u0)) &&
              decide (1 < (beforeChar '?' (beforeChar '#' u0)).count '/')) = true
          · rw [hval, if_pos hcond, endsWithSlash_rstripChar, Bool.false_and]
          · rw [hval, if_neg hcond]
            simpa using hcond

theorem normalize3_endsSlash (u : Str) : endsWithSlash (normalize3 u) = false := by
  unfold normalize3
  by_cases hu : u = []
  · rw [if_pos hu, hu]; rfl
  · rw [if_neg hu]; exact endsWithSlash_rstripChar _

theorem normalize3_all_no_frag (u : Str) :
    (normalize3 u).all (fun a => !(a == '#') && !(a == '?')) = true := by
  rw [List.all_eq_true]
  intro a ha
  have h := mem_normalize3 ha
  simp [h.2.1, h.2.2]

theorem normalizeFinal_all_no_frag (u : Str) :
    (normalizeFinal u).all (fun a => !(a == '#') && !(a == '?')) = true := by
  rw [List.all_eq_true]
  intro a ha
  have h := mem_normalizeFinal ha
  simp [h.1, h.2]

/-- C1: the URL normalizer is idempotent.  This holds for both embedded
normalizers: `normalize` of `3webmap_playwright.py` (`normalize3`) and
`normalize` of `final_webmap.py` (`normalizeFinal`): applying either twice
to any URL string gives the same result as applying it once. -/
theorem C1_normalize_idempotent (u : Str) :
    normalize3 (normalize3 u) = normalize3 u ∧
    normalizeFinal (normalizeFinal u) = normalizeFinal u :=
  ⟨normalize3_idem u, normalizeFinal_idem u⟩

/-- C2 counterexample: the claim says `normalize` strips exactly one trailing
path separator and never degrades an origin-only URL below its root form.
But `normalize` in `3webmap_playwright.py` maps `"https://a.com/"` to
`"https://a.com"` (the origin-only URL IS degraded), and `normalize` in
`final_webmap.py` maps `"https://a.com/x//"` to `"https://a.com/x"`,
stripping two separators instead of exactly one (stripping exactly one would
give `"https://a.com/x/"`). -/
theorem C2_normalize_counterexample :
    normalize3 ("https://a.com/".toList) = "https://a.com".toList ∧
    "https://a.com".toList ≠ "https://a.com/".toList ∧
    normalizeFinal ("https://a.com/x//".toList) = "https://a.com/x".toList ∧
    "https://a.com/x".toList ≠ "https://a.com/x/".toList := by
  refine ⟨by decide, by decide, by decide, by decide⟩

/-- C2 amended: both normalizers remove everything at and after the first
`#` and the first `?`, and return a null/empty input unchanged, and
`normalize("https://a.com/x?q=1#y") = "https://a.com/x"` in both files.
But the trailing-separator handling differs from the claim:
`3webmap_playwright.py` strips ALL trailing `/` characters, including the
one of an origin-only URL (`"https://a.com/"` becomes `"https://a.com"`,
and the result never ends in `/`), while `final_webmap.py` strips all
trailing `/` characters of the part after `"://"` except when that part
contains only a single `/` (so `"https://a.com/"` is kept, but
`"https://a.com/x//"` loses both trailing separators). -/
theorem C2_normalize_stripping_amended :
    (normalize3 [] = [] ∧ normalizeFinal [] = []) ∧
    (normalize3 ("https://a.com/x?q=1#y".toList) = "https://a.com/x".toList ∧
      normalizeFinal ("https://a.com/x?q=1#y".toList) = "https://a.com/x".toList) ∧
    (∀ u : Str, (normalize3 u).all (fun a => !(a == '#') && !(a == '?')) = true) ∧
    (∀ u : Str, (normalizeFinal u).all (fun a => !(a == '#') && !(a == '?')) = true) ∧
    (∀ u : Str, endsWithSlash (normalize3 u) = false) ∧
    (normalize3 ("https://a.com/".toList) = "https://a.com".toList ∧
      normalizeFinal ("https://a.com/".toList) = "https://a.com/".toList ∧
      normalizeFinal ("https://a.com/x//".toList) = "https://a.com/x".toList) :=
  ⟨⟨by decide, by decide⟩, ⟨by decide, by decide⟩,
    normalize3_all_no_frag, normalizeFinal_all_no_frag, normalize3_endsSlash,
    by decide, by decide, by decide⟩

/-!
Crawl-loop embedding.  The rendering stack (Playwright, BeautifulSoup) is
abstracted into an oracle: for `3webmap_playwright.crawl` the oracle
`links : Url → List Url` gives, for a dequeued URL, the final `all_links`
set that the per-page pipeline produced (in the iteration order of the
Python set); for `final_webmap.crawl` the oracle `nav : Url → Option (List Url)`
returns `none` when `tab.goto` raises a non-timeout exception (the
`except Exception: ... continue` path, which skips the page record) and
`some links` otherwise.  Everything else — the visited set, the FIFO queue,
the `pages` mapping and the enqueue guard — is translated line by line.
-/

/-- The crawl state shared by both crawlers: `visited` set (as a list),
FIFO `queue` (`collections.deque`), and the `pages` adjacency mapping
(as an insertion-ordered association list). -/
structure CrawlState where
  visited : List Url
  queue : List Url
  pages : List (Url × List Url)
deriving DecidableEq

/-- The initial crawl state: `visited = set()`, `queue = deque([start_url])`,
`pages = {}` (both files). -/
def initState (start : Url) : CrawlState := ⟨[], [start], []⟩

/-- The link-queueing loop shared by both files:
`for link in all_links: if link not in visited and len(pages) + len(queue) < max_pages * 2: queue.append(link)`.
`pagesLen` is `len(pages)` (constant during the loop), the queue grows as
links are appended. -/
def enqueueLoop (maxPages pagesLen : Nat) (visited : List Url) :
    List Url → List Url → List Url
  | queue, [] => queue
  | queue, l :: ls =>
      if l ∉ visited ∧ pagesLen + queue.length < maxPages * 2 then
        enqueueLoop maxPages pagesLen visited (queue ++ [l]) ls
      else
        enqueueLoop maxPages pagesLen visited queue ls

/-- Negation of the `while queue and len(pages) < max_pages` loop condition
(both files): the loop stops when the queue is empty or `maxPages` pages
have been recorded. -/
def doneState (maxPages : Nat) (st : CrawlState) : Bool :=
  st.queue.isEmpty || decide (maxPages ≤ st.pages.length)

/-- One iteration of the `while` loop of `crawl` in `3webmap_playwright.py`
(lines 105-177): dequeue; skip if visited; otherwise mark visited, record
`pages[url] = {"links": list(all_links)}` and run the enqueue loop. -/
def step3 (links : Url → List Url) (maxPages : Nat) (st : CrawlState) : CrawlState :=
  match st.queue with
  | [] => st
  | url :: rest =>
      if url ∈ st.visited then { st with queue := rest }
      else
        let visited := st.visited ++ [url]
        let ls := links url
        let pages := st.pages ++ [(url, ls)]
        { visited := visited,
          queue := enqueueLoop maxPages pages.length visited rest ls,
          pages := pages }

/-- `crawl` of `3webmap_playwright.py` as a fuelled iteration of `step3`,
stopping when the `while` condition fails. -/
def run3 (links : Url → List Url) (maxPages : Nat) : Nat → CrawlState → CrawlState
  | 0, st => st
  | fuel + 1, st =>
      if doneState maxPages st then st
      else run3 links maxPages fuel (step3 links maxPages st)

/-- Python `sorted` on strings: insertion sort by code-point lexicographic
order (used by `final_webmap.py` for `pages[url] = sorted(all_links)` and
by its tree builder for `sorted(domain_urls)`). -/
def strLe : Str → Str → Bool
  | [], _ => true
  | _ :: _, [] => false
  | a :: as, b :: bs =>
      if a.val < b.val then true
      else if b.val < a.val then false
      else strLe as bs

/-- Insert into a sorted list (helper for `sortStrs`). -/
def insSorted (x : Str) : List Str → List Str
  | [] => [x]
  | y :: ys => if strLe x y then x :: y :: ys else y :: insSorted x ys

/-- Python `sorted(...)` over a list of strings. -/
def sortStrs (l : List Str) : List Str := l.foldr insSorted []

/-- One iteration of the `while` loop of `crawl` in `final_webmap.py`
(lines 213-280): dequeue; skip if visited; mark visited; on a non-timeout
`tab.goto` exception (`nav url = none`) `continue` WITHOUT recording a page;
otherwise record `pages[url] = sorted(all_links)` and enqueue. -/
def stepF (nav : Url → Option (List Url)) (maxPages : Nat) (st : CrawlState) :
    CrawlState :=
  match st.queue with
  | [] => st
  | url :: rest =>
      if url ∈ st.visited then { st with queue := rest }
      else
        let visited := st.visited ++ [url]
        match nav url with
        | none => { st with visited := visited, queue := rest }
        | some ls =>
            let pages := st.pages ++ [(url, sortStrs ls)]
            { visited := visited,
              queue := enqueueLoop maxPages pages.length visited rest ls,
              pages := pages }

/-- `crawl` of `final_webmap.py` as a fuelled iteration of `stepF`. -/
def runF (nav : Url → Option (List Url)) (maxPages : Nat) :
    Nat → CrawlState → CrawlState
  | 0, st => st
  | fuel + 1, st =>
      if doneState maxPages st then st
      else runF nav maxPages fuel (stepF nav maxPages st)

/-- Core invariant of the 3webmap crawl loop: the visited set and the keys
of `pages` coincide (in order), are duplicate-free, and never exceed the
page budget. -/
def InvA (M : Nat) (st : CrawlState) : Prop :=
  st.visited = st.pages.map Prod.fst ∧ st.visited.Nodup ∧ st.pages.length ≤ M

theorem enqueueLoop_le (M pl : Nat) (v : List Url) :
    ∀ ls q, (enqueueLoop M pl v q ls).length ≤ max q.length (M * 2 - pl) := by
  intro ls
  induction ls with
  | nil => intro q; rw [enqueueLoop]; omega
  | cons l ls ih =>
    intro q
    rw [enqueueLoop]
    by_cases hc : l ∉ v ∧ pl + q.length < M * 2
    · rw [if_pos hc]
      have h1 := ih (q ++ [l])
      rw [List.length_append, List.length_singleton] at h1
      have h2 := hc.2
      omega
    · rw [if_neg hc]
      exact ih q

theorem doneState_false {M : Nat} {st : CrawlState}
    (hd : doneState M st = false) : st.queue ≠ [] ∧ st.pages.length < M := by
  unfold doneState at hd
  rw [Bool.or_eq_false_iff] at hd
  refine ⟨?_, ?_⟩
  · intro hq
    rw [hq] at hd
    simp at hd
  · have := hd.2
    simp at this
    omega

theorem step3_invA {links : Url → List Url} {M : Nat} {st : CrawlState}
    (hd : doneState M st = false) (h : InvA M st) : InvA M (step3 links M st) := by
  obtain ⟨h1, h2, h3⟩ := h
  have hpl := (doneState_false hd).2
  obtain ⟨v, q, p⟩ := st
  simp only at h1 h2 h3 hpl
  cases q with
  | nil => exact ⟨h1, h2, h3⟩
  | cons url rest =>
    by_cases hv : url ∈ v
    · simp only [step3, if_pos hv]
      exact ⟨h1, h2, h3⟩
    · simp only [step3, if_neg hv]
      refine ⟨by simp [h1], ?_, by simp; omega⟩
      rw [List.nodup_append]
      refine ⟨h2, List.nodup_singleton _, ?_⟩
      intro a ha hb
      simp only [List.mem_singleton] at hb
      subst hb
      exact hv ha

theorem step3_bound {links : Url → List Url} {M : Nat} {st : CrawlState}
    (h : st.pages.length + st.queue.length ≤ M * 2) :
    (step3 links M st).pages.length + (step3 links M st).queue.length ≤ M * 2 := by
  obtain ⟨v, q, p⟩ := st
  simp only at h
  cases q with
  | nil => simpa using h
  | cons url rest =>
    by_cases hv : url ∈ v
    · simp only [step3, if_pos hv]
      simp only [List.length_cons] at h ⊢
      omega
    · simp only [step3, if_neg hv]
      have hb := enqueueLoop_le M (p ++ [(url, links url)]).length (v ++ [url])
        (links url) rest
      simp only [List.length_append, List.length_singleton, List.length_cons,
        List.length_nil] at h hb ⊢
      omega

theorem run3_invA {links : Url → List Url} {M : Nat} :
    ∀ (fuel : Nat) (st : CrawlState), InvA M st → InvA M (run3 links M fuel st) := by
  intro fuel
  induction fuel with
  | zero => intro st h; exact h
  | succ n ih =>
    intro st h
    rw [run3]
    by_cases hd : doneState M st = true
    · rw [if_pos hd]; exact h
    · rw [if_neg hd]
      exact ih _ (step3_invA (by simpa using hd) h)

theorem run3_bound {links : Url → List Url} {M : Nat} :
    ∀ (fuel : Nat) (st : CrawlState),
      st.pages.length + st.queue.length ≤ M * 2 →
      (run3 links M fuel st).pages.length + (run3 links M fuel st).queue.length ≤
        M * 2 := by
  intro fuel
  induction fuel with
  | zero => intro st h; exact h
  | succ n ih =>
    intro st h
    rw [run3]
    by_cases hd : doneState M st = true
    · rw [if_pos hd]; exact h
    · rw [if_neg hd]
      exact ih _ (step3_bound h)

/-- Decreasing measure for the crawl loop: queue length plus a weighted
count of the remaining page budget. -/
def crawlMeasure (M : Nat) (st : CrawlState) : Nat :=
  st.queue.length + (M * 2 + 1) * (M - st.pages.length)

theorem step3_decrease {links : Url → List Url} {M : Nat} {st : CrawlState}
    (hd : doneState M st = false)
    (hb : st.pages.length + st.queue.length ≤ M * 2) :
    crawlMeasure M (step3 links M st) < crawlMeasure M st := by
  obtain ⟨hq, hpl⟩ := doneState_false hd
  obtain ⟨v, q, p⟩ := st
  simp only at hq hpl hb
  cases q with
  | nil => exact absurd rfl hq
  | cons url rest =>
    by_cases hv : url ∈ v
    · simp only [step3, if_pos hv, crawlMeasure, List.length_cons]
      omega
    · simp only [step3, if_neg hv, crawlMeasure]
      have hb2 := enqueueLoop_le M (p ++ [(url, links url)]).length (v ++ [url])
        (links url) rest
      simp only [List.length_append, List.length_singleton, List.length_cons,
        List.length_nil] at hb2 ⊢
      have hM : M - p.length = (M - (p.length + 1)) + 1 := by omega
      rw [hM, Nat.mul_add, Nat.mul_one]
      generalize (M * 2 + 1) * (M - (p.length + 1)) = K
      omega

theorem run3_done {links : Url → List Url} {M : Nat} :
    ∀ (n : Nat) (st : CrawlState), doneState M st = true →
      run3 links M n st = st := by
  intro n
  induction n with
  | zero => intro st _; rfl
  | succ n _ => intro st h; rw [run3, if_pos h]

theorem run3_add (links : Url → List Url) (M : Nat) :
    ∀ (a b : Nat) (st : CrawlState),
      run3 links M (a + b) st = run3 links M b (run3 links M a st) := by
  intro a
  induction a with
  | zero => intro b st; rw [Nat.zero_add]; rfl
  | succ n ih =>
    intro b st
    by_cases hd : doneState M st = true
    · simp only [run3_done _ _ hd]
    · have h1 : n + 1 + b = (n + b) + 1 := by omega
      rw [h1, run3, if_neg hd, ih, run3, if_neg hd]

theorem run3_term {links : Url → List Url} {M : Nat} :
    ∀ (n : Nat) (st : CrawlState), crawlMeasure M st ≤ n →
      st.pages.length + st.queue.length ≤ M * 2 →
      doneState M (run3 links M n st) = true := by
  intro n
  induction n with
  | zero =>
    intro st h _
    have hq : st.queue.length = 0 := by unfold crawlMeasure at h; omega
    have hqe : st.queue = [] := List.length_eq_zero.1 hq
    simp [run3, doneState, hqe]
  | succ n ih =>
    intro st h hb
    rw [run3]
    by_cases hd : doneState M st = true
    · rw [if_pos hd]; exact hd
    · rw [if_neg hd]
      have hd' : doneState M st = false := by simpa using hd
      have hlt := @step3_decrease links M st hd' hb
      exact ih _ (by omega) (step3_bound hb)

theorem doneState_iff {M : Nat} {st : CrawlState} (hA : InvA M st) :
    (doneState M st = true ↔ (st.queue = [] ∨ st.visited.length = M)) := by
  obtain ⟨h1, h2, h3⟩ := hA
  have hlen : st.visited.length = st.pages.length := by rw [h1]; simp
  simp only [doneState, Bool.or_eq_true, List.isEmpty_iff, decide_eq_true_eq]
  constructor
  · rintro (h | h)
    · exact Or.inl h
    · exact Or.inr (by omega)
  · rintro (h | h)
    · exact Or.inl h
    · exact Or.inr (by omega)

theorem step3_pages_pre {links : Url → List Url} {M : Nat} (st : CrawlState) :
    st.pages <+: (step3 links M st).pages := by
  obtain ⟨v, q, p⟩ := st
  cases q with
  | nil => exact ⟨[], by simp [step3]⟩
  | cons url rest =>
    by_cases hv : url ∈ v
    · simp only [step3, if_pos hv]
      exact ⟨[], by simp⟩
    · simp only [step3, if_neg hv]
      exact ⟨[(url, links url)], rfl⟩

theorem run3_pages_pre {links : Url → List Url} {M : Nat} :
    ∀ (fuel : Nat) (st : CrawlState),
      st.pages <+: (run3 links M fuel st).pages := by
  intro fuel
  induction fuel with
  | zero => intro st; exact ⟨[], by simp [run3]⟩
  | succ n ih =>
    intro st
    rw [run3]
    by_cases hd : doneState M st = true
    · rw [if_pos hd]
    · rw [if_neg hd]
      exact (step3_pages_pre st).trans (ih _)

/-- Fuel sufficient for the crawl loop to reach its exit condition from the
initial state. -/
def crawlFuelInit (M : Nat) : Nat := 1 + (M * 2 + 1) * M

/-- Concrete link oracle used to exhibit duplicate frontier entries:
page `a` links to `b` and `c`, page `b` links to `c` again. -/
def linksDup : Url → List Url :=
  fun u =>
    if u = ['a'] then [['b'], ['c']]
    else if u = ['b'] then [['c']]
    else []

/-- Concrete navigation oracle for `final_webmap.crawl` in which page `b`
fails with a non-timeout `goto` exception. -/
def navFail : Url → Option (List Url) :=
  fun u =>
    if u = ['a'] then some [['b'], ['c']]
    else if u = ['b'] then none
    else if u = ['c'] then some []
    else none

/-- Concrete navigation oracle for `final_webmap.crawl` in which the second
page fails: it is visited but never recorded. -/
def navFailB : Url → Option (List Url) :=
  fun u => if u = ['a'] then some [['b']] else none

/-- C3 counterexample: the claim says no URL enters the frontier more than
once and `|visited| + |queued|` stays strictly below `2 × maxPages`.  Both
parts fail on `crawl` of `3webmap_playwright.py`: with the oracle
`linksDup` (start `"a"`, `maxPages = 10`), after two loop iterations the
queue is `["c", "c"]` — URL `"c"` entered the frontier twice, because the
enqueue guard checks only `link not in visited`, not queue membership.
And with `maxPages = 1`, after one iteration
`|visited| + |queued| = 2 = 2 × maxPages`, not strictly below it. -/
theorem C3_frontier_counterexample :
    ((run3 linksDup 10 2 (initState ['a'])).queue = [['c'], ['c']] ∧
      ¬ (run3 linksDup 10 2 (initState ['a'])).queue.Nodup) ∧
    ((run3 linksDup 1 1 (initState ['a'])).visited.length +
        (run3 linksDup 1 1 (initState ['a'])).queue.length = 1 * 2) := by
  refine ⟨⟨by decide, by decide⟩, by decide⟩

/-- C3 amended: a URL may be appended to the queue while already queued
(the guard checks only the visited set), but no URL is ever PROCESSED twice:
visited URLs are skipped at dequeue, so the page-record keys stay
duplicate-free and coincide with the visited set; a link is enqueued only
when it is not yet visited and `len(pages) + len(queue) < maxPages * 2`
holds at that moment, giving the invariant
`len(pages) + len(queue) ≤ maxPages * 2` (with equality reachable) at every
step; same-site filtering happens in the link extractors before the links
reach the enqueue loop, not in the enqueue guard itself. -/
theorem C3_frontier_invariant_amended (links : Url → List Url) (M : Nat)
    (start : Url) (fuel : Nat) (hM : 1 ≤ M) :
    (run3 links M fuel (initState start)).pages.length +
        (run3 links M fuel (initState start)).queue.length ≤ M * 2 ∧
    ((run3 links M fuel (initState start)).pages.map Prod.fst).Nodup ∧
    (run3 links M fuel (initState start)).visited =
      (run3 links M fuel (initState start)).pages.map Prod.fst := by
  have hA := @run3_invA links M fuel (initState start)
    ⟨rfl, List.nodup_nil, by simp [initState]⟩
  have hB := @run3_bound links M fuel (initState start)
    (by simp [initState]; omega)
  obtain ⟨h1, h2, _⟩ := hA
  exact ⟨hB, h1 ▸ h2, h1⟩

/-- C3 witness: the amended invariant instantiated at a concrete crawl. -/
theorem C3_frontier_invariant_witness :
    (run3 linksDup 1 2 (initState ['a'])).pages.length +
        (run3 linksDup 1 2 (initState ['a'])).queue.length ≤ 1 * 2 ∧
    ((run3 linksDup 1 2 (initState ['a'])).pages.map Prod.fst).Nodup ∧
    (run3 linksDup 1 2 (initState ['a'])).visited =
      (run3 linksDup 1 2 (initState ['a'])).pages.map Prod.fst :=
  C3_frontier_invariant_amended linksDup 1 ['a'] 2 (by decide)

/-- C4 counterexample: the claim says the loop terminates exactly when the
frontier is empty or `|visited| = maxPages`, and that nothing more is
dequeued and processed once `|visited|` reaches `maxPages`.  In
`final_webmap.crawl` with oracle `navFail` and `maxPages = 2`: after two
iterations `|visited| = 2 = maxPages` yet the loop is NOT done (only one
page record exists, because `b`'s `goto` raised and was skipped with
`continue` after `visited.add`), and the third iteration dequeues and
processes `"c"`, growing `visited` to three entries. -/
theorem C4_termination_counterexample :
    (runF navFail 2 2 (initState ['a'])).visited.length = 2 ∧
    doneState 2 (runF navFail 2 2 (initState ['a'])) = false ∧
    (runF navFail 2 3 (initState ['a'])).visited = [['a'], ['b'], ['c']] ∧
    ((runF navFail 2 3 (initState ['a'])).pages.map Prod.fst) = [['a'], ['c']] := by
  refine ⟨by decide, by decide, by decide, by decide⟩

/-- C4 amended: the crawl loop stops exactly when the queue is empty or the
number of RECORDED PAGES reaches `maxPages`.  For `3webmap_playwright.crawl`
every processed URL is recorded, so `|visited| = |pages|` and the claim
holds as stated there: the loop reaches its exit condition within
`crawlFuelInit maxPages` iterations, is stable afterwards (nothing further
is dequeued or processed), and at every fuel the exit condition is
equivalent to `queue = [] ∨ |visited| = maxPages`.  In `final_webmap.crawl`
a URL whose navigation raises a non-timeout error is visited without a page
record, so there termination is governed by `|pages|`, not `|visited|`
(see the counterexample). -/
theorem C4_termination_amended (links : Url → List Url) (M : Nat) (start : Url) :
    doneState M (run3 links M (crawlFuelInit M) (initState start)) = true ∧
    (∀ k, run3 links M (crawlFuelInit M + k) (initState start) =
        run3 links M (crawlFuelInit M) (initState start)) ∧
    (∀ fuel, doneState M (run3 links M fuel (initState start)) = true ↔
        ((run3 links M fuel (initState start)).queue = [] ∨
          (run3 links M fuel (initState start)).visited.length = M)) := by
  have hdone : doneState M (run3 links M (crawlFuelInit M) (initState start)) = true := by
    rcases Nat.eq_zero_or_pos M with hM | hM
    · subst hM
      simp [doneState]
    · refine run3_term _ _ ?_ ?_
      · simp [crawlMeasure, initState, crawlFuelInit]
      · simp [initState]
        omega
  refine ⟨hdone, ?_, ?_⟩
  · intro k
    rw [run3_add, run3_done _ _ hdone]
  · intro fuel
    exact doneState_iff (run3_invA fuel _ ⟨rfl, List.nodup_nil, by simp [initState]⟩)

/-!
Per-URL render model for `crawl` of `3webmap_playwright.py` (lines 117-170).
A `RenderScenario` records the outcome of the external stages for one
dequeued URL: whether `tab.goto` succeeded (`page_ok`), the links each
rendered channel produced (anchors, `onclick` literals, `data-url`
attributes, click discovery), and the outcome of the fallback
`fetch_html` / `extract_links_static` pair.
-/

/-- Outcomes of the external stages for one dequeued URL in
`3webmap_playwright.crawl`. -/
structure RenderScenario where
  pageOk : Bool
  anchorLinks : List Url
  onclickLinks : List Url
  dataUrlLinks : List Url
  clickLinks : List Url
  fetchOk : Bool
  staticLinks : List Url
deriving DecidableEq

/-- The union `all_links` accumulated from the rendered channels: non-empty
only when the Playwright navigation succeeded (`if page_ok:` guards all
four channels). -/
def renderedUnion (sc : RenderScenario) : List Url :=
  if sc.pageOk then
    sc.anchorLinks ++ sc.onclickLinks ++ sc.dataUrlLinks ++ sc.clickLinks
  else []

/-- The fallback guard `if not all_links and not page_ok:` of
`3webmap_playwright.crawl` (line 162). -/
def fallbackRan (sc : RenderScenario) : Bool :=
  (renderedUnion sc).isEmpty && !sc.pageOk

/-- The final link set recorded for the page: the static-extractor result
when the fallback fired and the plain fetch returned content, otherwise the
rendered union (lines 162-172). -/
def pageLinks (sc : RenderScenario) : List Url :=
  if fallbackRan sc then (if sc.fetchOk then sc.staticLinks else [])
  else renderedUnion sc

/-- C7: the static-fetch fallback runs if and only if the scripted
navigation did not succeed AND the union of rendered-channel links is
empty; in particular a successful render with zero links never triggers
the fallback.  Because the code only populates `all_links` when `page_ok`
is true, the guard is also equivalent to plain navigation failure. -/
theorem C7_fallback_gating (sc : RenderScenario) :
    (fallbackRan sc = true ↔ (sc.pageOk = false ∧ renderedUnion sc = [])) ∧
    (fallbackRan { sc with pageOk := true } = false) ∧
    (fallbackRan sc = true ↔ sc.pageOk = false) := by
  obtain ⟨ok, a, o, d, c, f, st⟩ := sc
  cases ok <;> simp [fallbackRan, renderedUnion]

/-- C8 counterexample: the claim says a page whose rendering fails is still
recorded (with zero links) in the SiteGraph.  In `final_webmap.crawl` with
oracle `navFailB`, URL `"b"`'s navigation raises a non-timeout exception:
`"b"` is marked visited but the loop `continue`s BEFORE `pages[url]` is
assigned, so the finished crawl has no record for `"b"` at all. -/
theorem C8_pagerecord_counterexample :
    (['b'] ∈ (runF navFailB 5 2 (initState ['a'])).visited) ∧
    (['b'] ∉ ((runF navFailB 5 2 (initState ['a'])).pages.map Prod.fst)) ∧
    doneState 5 (runF navFailB 5 2 (initState ['a'])) = true := by
  refine ⟨by decide, by decide, by decide⟩

/-- C8 amended: in `3webmap_playwright.crawl` the claim holds: every
processed URL gets exactly one immutable PageRecord (the keys of `pages`
equal the visited list and are duplicate-free, and `pages` is append-only
across iterations), and a page whose render fails and whose fallback fetch
also fails contributes an empty link set yet is still visited and recorded.
In `final_webmap.crawl`, however, a URL whose navigation raises a
non-timeout error is visited WITHOUT a page record (see the
counterexample); that crawler has no fallback fetch at all.  Neither
crawler raises a run-level error for such pages. -/
theorem C8_pagerecord_amended (links : Url → List Url) (M : Nat) (start : Url) :
    (∀ fuel, (run3 links M fuel (initState start)).visited =
        ((run3 links M fuel (initState start)).pages.map Prod.fst) ∧
      ((run3 links M fuel (initState start)).pages.map Prod.fst).Nodup) ∧
    (∀ fuel k, (run3 links M fuel (initState start)).pages <+:
        (run3 links M (fuel + k) (initState start)).pages) ∧
    (∀ a o d c st, pageLinks ⟨false, a, o, d, c, false, st⟩ = []) := by
  refine ⟨?_, ?_, ?_⟩
  · intro fuel
    obtain ⟨h1, h2, _⟩ := @run3_invA links M fuel (initState start)
      ⟨rfl, List.nodup_nil, by simp [initState]⟩
    exact ⟨h1, h1 ▸ h2⟩
  · intro fuel k
    rw [run3_add]
    exact run3_pages_pre k _
  · intro a o d c st
    simp [pageLinks, fallbackRan, renderedUnion]

/-- Python `urlparse(u).netloc` for absolute URLs: the part between
`"://"` and the next `/` (empty when the string has no `"://"`, as
`urlparse` then treats everything as path). -/
def netlocOf (u : Str) : Str :=
  match splitSep u with
  | some (_, rest) => rest.takeWhile (fun a => a != '/')
  | none => []

/-- Python `urlparse(u).path` for absolute URLs: what follows the host
(the whole string when there is no `"://"`). -/
def pathOf (u : Str) : Str :=
  match splitSep u with
  | some (_, rest) => rest.dropWhile (fun a => a != '/')
  | none => u

/-- Python `s.lower()` (ASCII case fold as used on host names). -/
def lowerStr (s : Str) : Str := s.map Char.toLower

/-- Python `net[4:] if net.startswith("www.") else net`. -/
def stripWww (s : Str) : Str :=
  if s.take 4 = "www.".toList then s.drop 4 else s

/-- `root_domain` from `src/final/final_webmap.py` (lines 59-63): lowercased
netloc with a single leading `"www."` label removed. -/
def root_domain (url : Str) : Str := stripWww (lowerStr (netlocOf url))

/-!
Interactive Discovery Engine: `click_discover_links` of
`3webmap_playwright.py` (lines 327-399) and `click_discover` of
`final_webmap.py` (lines 122-190).  Both share the same control loop and
differ only in the normalizer and in the same-site test applied to a
navigated-to URL, so the loop is parameterised by those two functions.
The rendering session is abstracted per candidate: whether
`bounding_box()` yielded a box, what the click/`expect_navigation` pair
did, and whether `go_back` and the recovery `goto(before_url)` succeed.
A successful `go_back` pops the history entry pushed by the observed
navigation, and a successful `goto(before_url)` lands on `before_url`; in
both cases the session is back on the recorded origin URL.
-/

/-- Outcome of one click / `expect_navigation` pair. -/
inductive ClickOutcome where
  /-- navigation completed inside `expect_navigation`; the session lands on
  the given URL. -/
  | navigated (newUrl : Str)
  /-- the wait timed out; the session URL afterwards is the given one
  (in-page scripting may have changed it without a full navigation). -/
  | timeout (urlAfter : Str)
  /-- the click raised a non-timeout exception; the session URL is
  unchanged. -/
  | failed
deriving DecidableEq

/-- One clickable candidate element together with the scripted behaviour of
the session for its attempt. -/
structure Candidate where
  interactable : Bool
  outcome : ClickOutcome
  goBackOk : Bool
  gotoOk : Bool
deriving DecidableEq

/-- Loop state of the click-discovery engine: current session URL, clicks
consumed, discovered URLs, and whether the loop `break`-ed after a failed
restoration. -/
structure DiscoverState where
  current : Str
  clicksDone : Nat
  discovered : List Str
  aborted : Bool
deriving DecidableEq

/-- Body of the click loop for one interactable candidate: record
`before_url = tab.url`, click while watching for navigation, consume one
unit of budget, and if navigation was observed record the accepted URL and
restore via `go_back`, falling back to `goto(before_url)`, aborting the
page's discovery when both fail. -/
def clickAttempt (norm : Str → Str) (accept : Str → Str → Bool)
    (s : DiscoverState) (c : Candidate) : DiscoverState :=
  let before := s.current
  let nav : Bool × Str :=
    match c.outcome with
    | ClickOutcome.navigated u => (true, u)
    | ClickOutcome.timeout u => (u != before, u)
    | ClickOutcome.failed => (false, before)
  let clicks := s.clicksDone + 1
  if nav.1 then
    let newUrl := norm nav.2
    let disc := if accept newUrl before then s.discovered ++ [newUrl]
      else s.discovered
    if c.goBackOk then
      { s with clicksDone := clicks, discovered := disc }
    else if c.gotoOk then
      { s with clicksDone := clicks, discovered := disc }
    else
      { current := nav.2, clicksDone := clicks, discovered := disc,
        aborted := true }
  else
    { s with clicksDone := clicks }

/-- The candidate loop of `click_discover_links` / `click_discover`:
stop after a restoration failure (`break`), stop when the click budget is
exhausted, skip candidates without a bounding box (they consume no budget),
and otherwise run one attempt. -/
def clickDiscover (norm : Str → Str) (accept : Str → Str → Bool)
    (maxClicks : Nat) : List Candidate → DiscoverState → DiscoverState
  | [], s => s
  | c :: cs, s =>
      if s.aborted then s
      else if maxClicks ≤ s.clicksDone then s
      else if c.interactable then
        clickDiscover norm accept maxClicks cs (clickAttempt norm accept s c)
      else
        clickDiscover norm accept maxClicks cs s

/-- The same-site test applied to a click-navigated URL in
`3webmap_playwright.click_discover_links`: exact netloc equality plus the
requirement that the normalized URL actually changed. -/
def accept3 (domain : Str) : Str → Str → Bool :=
  fun newUrl before => netlocOf newUrl == domain && newUrl != normalize3 before

/-- The same-site test applied in `final_webmap.click_discover`:
lowercased, `www.`-stripped netloc must END WITH the root domain, plus the
requirement that the normalized URL changed. -/
def acceptF (rootDom : Str) : Str → Str → Bool :=
  fun newUrl before =>
    rootDom.isSuffixOf (stripWww (lowerStr (netlocOf newUrl))) &&
      newUrl != normalizeFinal before

theorem clickAttempt_restore (norm : Str → Str) (accept : Str → Str → Bool)
    (s : DiscoverState) (c : Candidate) :
    (clickAttempt norm accept s c).aborted = true ∨
    (clickAttempt norm accept s c).current = s.current := by
  obtain ⟨i, oc, gb, gt⟩ := c
  cases oc <;> cases gb <;> cases gt <;>
    simp [clickAttempt] <;> split <;> simp

theorem clickAttempt_clicks (norm : Str → Str) (accept : Str → Str → Bool)
    (s : DiscoverState) (c : Candidate) :
    (clickAttempt norm accept s c).clicksDone = s.clicksDone + 1 := by
  obtain ⟨i, oc, gb, gt⟩ := c
  cases oc <;> cases gb <;> cases gt <;>
    simp [clickAttempt] <;> split <;> simp

theorem clickDiscover_of_aborted (norm : Str → Str) (accept : Str → Str → Bool)
    (maxClicks : Nat) (cands : List Candidate) (s : DiscoverState)
    (h : s.aborted = true) :
    clickDiscover norm accept maxClicks cands s = s := by
  cases cands with
  | nil => rfl
  | cons c cs => rw [clickDiscover, if_pos h]

theorem clickDiscover_restore_aux (norm : Str → Str) (accept : Str → Str → Bool)
    (maxClicks : Nat) :
    ∀ (cands : List Candidate) (s : DiscoverState), s.aborted = false →
      (clickDiscover norm accept maxClicks cands s).aborted = true ∨
      (clickDiscover norm accept maxClicks cands s).current = s.current := by
  intro cands
  induction cands with
  | nil => intro s _; right; rfl
  | cons c cs ih =>
    intro s hs
    rw [clickDiscover, if_neg (by simp [hs])]
    by_cases hb : maxClicks ≤ s.clicksDone
    · rw [if_pos hb]; right; rfl
    · rw [if_neg hb]
      by_cases hi : c.interactable = true
      · rw [if_pos hi]
        by_cases hab : (clickAttempt norm accept s c).aborted = true
        · rw [clickDiscover_of_aborted norm accept maxClicks cs _ hab]
          left; exact hab
        · have hcur : (clickAttempt norm accept s c).current = s.current := by
            rcases clickAttempt_restore norm accept s c with h | h
            · exact absurd h hab
            · exact h
          have hab' : (clickAttempt norm accept s c).aborted = false := by
            simpa using hab
          rcases ih _ hab' with h | h
          · left; exact h
          · right; rw [h, hcur]
      · rw [if_neg hi]
        exact ih s hs

theorem clickDiscover_budget_aux (norm : Str → Str) (accept : Str → Str → Bool)
    (maxClicks : Nat) :
    ∀ (cands : List Candidate) (s : DiscoverState),
      s.clicksDone ≤ maxClicks →
      (clickDiscover norm accept maxClicks cands s).clicksDone ≤ maxClicks := by
  intro cands
  induction cands with
  | nil => intro s h; exact h
  | cons c cs ih =>
    intro s h
    rw [clickDiscover]
    by_cases ha : s.aborted = true
    · rw [if_pos ha]; exact h
    · rw [if_neg ha]
      by_cases hb : maxClicks ≤ s.clicksDone
      · rw [if_pos hb]; exact h
      · rw [if_neg hb]
        by_cases hi : c.interactable = true
        · rw [if_pos hi]
          refine ih _ ?_
          rw [clickAttempt_clicks]
          omega
        · rw [if_neg hi]
          exact ih s h

/-- C5: after every click attempt of the Interactive Discovery Engine the
session is back on the attempt's recorded origin, or discovery for the page
has been aborted (skipping all remaining candidates) after both `go_back`
and the explicit re-navigation failed.  Stated for the parameterised loop,
so it covers `click_discover_links` (3webmap, with `normalize3`/`accept3`)
and `click_discover` (final, with `normalizeFinal`/`acceptF`) alike: the
loop either ends aborted, or ends with the session exactly on the page URL
it started from. -/
theorem C5_restoration_invariant (norm : Str → Str) (accept : Str → Str → Bool)
    (maxClicks : Nat) (cands : List Candidate) (pageUrl : Str) :
    (clickDiscover norm accept maxClicks cands
        ⟨pageUrl, 0, [], false⟩).aborted = true ∨
    (clickDiscover norm accept maxClicks cands
        ⟨pageUrl, 0, [], false⟩).current = pageUrl :=
  clickDiscover_restore_aux norm accept maxClicks cands _ rfl

/-- C6: the Interactive Discovery Engine performs at most `budget` click
attempts — the final `clicks_done` counter never exceeds `max_clicks`
whatever the candidate list — and every attempted candidate consumes
exactly one unit of budget whether or not navigation occurred
(`clicks_done += 1` sits after the click, before the navigation check). -/
theorem C6_click_budget (norm : Str → Str) (accept : Str → Str → Bool)
    (maxClicks : Nat) (cands : List Candidate) (pageUrl : Str) :
    (clickDiscover norm accept maxClicks cands
        ⟨pageUrl, 0, [], false⟩).clicksDone ≤ maxClicks ∧
    (∀ (s : DiscoverState) (c : Candidate),
      (clickAttempt norm accept s c).clicksDone = s.clicksDone + 1) :=
  ⟨clickDiscover_budget_aux norm accept maxClicks cands _ (Nat.zero_le _),
    clickAttempt_clicks norm accept⟩

/-!
Tree Builder: `build_tree` of `3webmap_playwright.py` (lines 405-455) and
`build_tree_from_pages` of `final_webmap.py` (lines 290-360).  The mutated
Python dicts `{"name", "url", "children", "_path"}` become the inductive
`Node`; the in-place `find_or_create` walk becomes a structural insertion
along the segment list; the final `clean` removes the internal `_path` key
(here: blanks the field).
-/

/-- A tree node: `{"name": .., "url": .., "children": [..], "_path": ..}`. -/
inductive Node where
  | node (name : Str) (url : Option Str) (children : List Node) (path : Str) : Node

/-- Accessor for the node label. -/
def nodeName : Node → Str
  | Node.node n _ _ _ => n

/-- Accessor for the node URL. -/
def nodeUrl : Node → Option Str
  | Node.node _ u _ _ => u

/-- Accessor for the child list. -/
def nodeChildren : Node → List Node
  | Node.node _ _ cs _ => cs

/-- Accessor for the internal `_path` key. -/
def nodePath : Node → Str
  | Node.node _ _ _ p => p

/-- Python `node["url"] = url` at the end of the segment walk. -/
def setUrl : Node → Option Str → Node
  | Node.node nm _ cs pth, u => Node.node nm u cs pth

mutual
/-- The cleanup pass `clean(n)` that pops the internal `_path` key from
every node (modelled by blanking the field). -/
def clean : Node → Node
  | Node.node n u cs _ => Node.node n u (cleanList cs) []
/-- Pointwise `clean` over a child list. -/
def cleanList : List Node → List Node
  | [] => []
  | c :: cs => clean c :: cleanList cs
end

/-- Replace the first child whose `_path` equals `key` (the child that
`find_or_create` returned and the walk then mutated). -/
def replaceFirstWith (key : Str) (newNode : Node) : List Node → List Node
  | [] => []
  | c :: cs =>
      if nodePath c == key then newNode :: cs
      else c :: replaceFirstWith key newNode cs

/-- Python `s.strip("/")`. -/
def stripSlashes (s : Str) : Str :=
  rstripChar '/' (s.dropWhile (fun a => a == '/'))

/-- Python `s.split("/")` (keeps empty segments, as in `build_tree`). -/
def splitChar (c : Char) : Str → List Str
  | [] => [[]]
  | x :: xs =>
      if x == c then [] :: splitChar c xs
      else
        match splitChar c xs with
        | [] => [[x]]
        | s :: rest => (x :: s) :: rest

/-- Lookup in the `url_by_path` dict: the value of the LAST assignment wins
(later keys of `pages` overwrite earlier ones). -/
def lookupLast (l : List (Str × Str)) (k : Str) : Option Str :=
  (l.reverse.find? (fun p => p.1 == k)).map Prod.snd

/-- The segment walk of `build_tree` (3webmap): walk from the current node,
find-or-create a child keyed by the accumulated `"/".join(accumulated)`
prefix (new children get their URL from `url_by_path`), and at the final
segment overwrite the node's URL with the originating URL. -/
def insert3 (ubp : Str → Option Str) (fin : Str) : List Str → Node → Node
  | [], n => setUrl n (some fin)
  | seg :: rest, Node.node nm u cs pth =>
      let segPath := if pth.isEmpty then seg else pth ++ '/' :: seg
      match cs.find? (fun c => nodePath c == segPath) with
      | some c =>
          Node.node nm u (replaceFirstWith segPath (insert3 ubp fin rest c) cs) pth
      | none =>
          Node.node nm u
            (cs ++ [insert3 ubp fin rest (Node.node seg (ubp segPath) [] segPath)]) pth

/-- `build_tree` from `src/3webmap_playwright.py` (lines 405-455): root is
the domain node carrying the start URL; every key of `pages` is processed
IN DICT INSERTION ORDER (`for url in pages.keys()` — i.e. discovery
order), its path is stripped of surrounding slashes and split on `/`, and
the segments are walked from the root.  `urls` stands for
`list(pages.keys())`. -/
def build_tree (start_url : Str) (urls : List Str) : Node :=
  let domain := netlocOf start_url
  let pairs := urls.map (fun u => (stripSlashes (pathOf u), u))
  let ubp := fun p => lookupLast pairs p
  let root := Node.node domain (some start_url) [] []
  let r := urls.foldl (fun nd u =>
    let np := stripSlashes (pathOf u)
    if np = [] then nd
    else insert3 ubp u (splitChar '/' np) nd) root
  clean r

/-- The segment walk of `build_tree_from_pages` (final): accumulated paths
carry a leading `/`, the label IS the full accumulated path, and newly
created children start with `url = None`. -/
def insertF (fin : Str) : List Str → Node → Node
  | [], n => setUrl n (some fin)
  | seg :: rest, Node.node nm u cs pth =>
      let segPath := if pth.isEmpty then '/' :: seg else pth ++ '/' :: seg
      match cs.find? (fun c => nodePath c == segPath) with
      | some c =>
          Node.node nm u (replaceFirstWith segPath (insertF fin rest c) cs) pth
      | none =>
          Node.node nm u
            (cs ++ [insertF fin rest (Node.node segPath none [] segPath)]) pth

/-- `build_tree_from_pages` from `src/final/final_webmap.py` (lines
290-360): empty adjacency gives `{}` (here `none`); otherwise the root is
`{"name": f"{domain}/", "url": f"{scheme}://{domain}/"}` derived from the
FIRST key; all keys and link values are collected, filtered to the exact
domain, DEDUPLICATED (they form a Python set) and processed in SORTED
order; paths default to `"/"`, drop any fragment, skip the bare root, and
split into NON-EMPTY segments. -/
def build_tree_from_pages (pages : List (Str × List Str)) : Option Node :=
  match pages with
  | [] => none
  | (first, _) :: _ =>
      let scheme := match splitSep first with
        | some (sch, _) => sch
        | none => "https".toList
      let domain := netlocOf first
      let root := Node.node (domain ++ ['/'])
        (some (scheme ++ sep ++ domain ++ ['/'])) [] []
      let allUrls := pages.map Prod.fst ++ (pages.map Prod.snd).flatten
      let domainUrls := allUrls.filter (fun u => !u.isEmpty && netlocOf u == domain)
      let sorted := sortStrs domainUrls.dedup
      let r := sorted.foldl (fun nd u =>
        let p1 := if pathOf u = [] then ['/'] else pathOf u
        let p2 := beforeChar '#' p1
        if p2 = ['/'] ∨ p2 = [] then nd
        else insertF u ((splitChar '/' (stripSlashes p2)).filter
          (fun sg => !sg.isEmpty)) nd) root
      some (clean r)

/-- Labels of the immediate children of a node. -/
def childNames (n : Node) : List Str := (nodeChildren n).map nodeName

/-- All node labels down to a given depth (preorder). -/
def namesUpTo : Nat → Node → List Str
  | 0, _ => []
  | d + 1, Node.node n _ cs _ => n :: (cs.map (namesUpTo d)).flatten

/-- The same-site acceptance test of `extract_links_from_dom` and
`click_discover` in `final_webmap.py` (lines 88-94 and 172-176): the
candidate's netloc is lowercased, a single leading `"www."` is stripped,
and the result must merely END WITH the crawl's root domain string. -/
def sameSiteF (link rootDom : Str) : Bool :=
  rootDom.isSuffixOf (stripWww (lowerStr (netlocOf link)))

/-- Example adjacency map over paths `/a`, `/a/b`, `/a/c`, `/d`. -/
def pagesX : List (Str × List Str) :=
  [("https://ex.com/a".toList, ["https://ex.com/a/b".toList]),
   ("https://ex.com/d".toList, ["https://ex.com/a/c".toList])]

/-- The same URL set as `pagesX`, listed in a different discovery order. -/
def pagesY : List (Str × List Str) :=
  [("https://ex.com/d".toList,
      ["https://ex.com/a/c".toList, "https://ex.com/a/b".toList]),
   ("https://ex.com/a".toList, [])]

/-- The tree `build_tree_from_pages` produces for the URL-path set
`{"/a", "/a/b", "/a/c", "/d"}` on domain `ex.com`. -/
def expectedTree : Node :=
  Node.node ("ex.com/".toList) (some ("https://ex.com/".toList))
    [Node.node ("/a".toList) (some ("https://ex.com/a".toList))
      [Node.node ("/a/b".toList) (some ("https://ex.com/a/b".toList)) [] [],
       Node.node ("/a/c".toList) (some ("https://ex.com/a/c".toList)) [] []] [],
     Node.node ("/d".toList) (some ("https://ex.com/d".toList)) [] []] []

/-- C9 counterexample: the claim says the Tree Builder processes URLs in a
fixed total order (not discovery order).  `build_tree` of
`3webmap_playwright.py` iterates `pages.keys()` in dict insertion order —
the discovery order — so the same URL set `{"/a", "/d"}` fed in two
different orders produces two different trees (sibling order flips). -/
theorem C9_tree_counterexample :
    childNames (build_tree ("https://s.com".toList)
        ["https://s.com/a".toList, "https://s.com/d".toList]) =
      ["a".toList, "d".toList] ∧
    childNames (build_tree ("https://s.com".toList)
        ["https://s.com/d".toList, "https://s.com/a".toList]) =
      ["d".toList, "a".toList] ∧
    build_tree ("https://s.com".toList)
        ["https://s.com/a".toList, "https://s.com/d".toList] ≠
      build_tree ("https://s.com".toList)
        ["https://s.com/d".toList, "https://s.com/a".toList] := by
  refine ⟨rfl, rfl, fun h => ?_⟩
  exact absurd (congrArg childNames h) (by decide)

/-- C9 amended: `build_tree_from_pages` of `final_webmap.py` satisfies the
claim — it sorts the deduplicated URL set before processing (lexicographic,
independent of discovery order), keys children by the full accumulated path
prefix, and on the path set `{"/a", "/a/b", "/a/c", "/d"}` produces one and
the same tree from two differently-ordered adjacency maps, in which node
`/a` has exactly the two children `/a/b` and `/a/c`, node `/d` is a
root-level sibling of `/a`, and no node label is duplicated.  `build_tree`
of `3webmap_playwright.py`, however, iterates in discovery order, so its
sibling order depends on the discovery order (see the counterexample). -/
theorem C9_tree_determinism_amended :
    build_tree_from_pages pagesX = some expectedTree ∧
    build_tree_from_pages pagesY = some expectedTree ∧
    childNames expectedTree = ["/a".toList, "/d".toList] ∧
    (nodeChildren expectedTree).map childNames =
      [["/a/b".toList, "/a/c".toList], []] ∧
    (namesUpTo 5 expectedTree).Nodup := by
  refine ⟨rfl, rfl, rfl, rfl, by decide⟩

/-- C10: in `final_webmap.py` the same-site predicate accepts a candidate
link exactly when the lowercased, `www.`-stripped host ends with the start
URL's root domain as a PLAIN STRING suffix (first conjunct, definitional
for the embedded test).  Consequently `"evilpython.org"` — which is
neither the host `"python.org"` nor a `.python.org` subdomain — is
accepted as same-site for the crawl target `"https://python.org"`, as are
the genuine host and subdomains. -/
theorem C10_same_site_suffix :
    (∀ link rootDom : Str,
      sameSiteF link rootDom =
        rootDom.isSuffixOf (stripWww (lowerStr (netlocOf link)))) ∧
    root_domain ("https://python.org".toList) = "python.org".toList ∧
    sameSiteF ("https://evilpython.org/x".toList)
      (root_domain ("https://python.org".toList)) = true ∧
    netlocOf ("https://evilpython.org/x".toList) ≠ "python.org".toList ∧
    (".python.org".toList.isSuffixOf
      (netlocOf ("https://evilpython.org/x".toList)) = false) ∧
    sameSiteF ("https://docs.python.org/3".toList)
      (root_domain ("https://python.org".toList)) = true ∧
    sameSiteF ("https://www.python.org/".toList)
      (root_domain ("https://python.org".toList)) = true := by
  refine ⟨fun _ _ => rfl, by decide, by decide, by decide, by decide, by decide,
    by decide⟩
